import Mathlib

/-!
# Verification of backupcopter's backup orchestration engine

Shallow embedding, in Lean 4, of the core of the `backupcopter` repository:
`bcopter/shift.py` (interval rotation and cross-interval replication),
`bcopter/backup.py` (btrfs snapshot management, snapshot path substitution,
backup transactions, the `backup` command sequencing) and
`bcopter/context.py` / `bcopter/device_context.py` (the rsync wrapper and the
device-wait resource context).

Modelling conventions:

* Python strings are modelled as `List Char` (`Str`); `s.startswith(p)` is
  `List.isPrefixOf`, slicing `s[n:]` is `List.drop n`, `len` is `List.length`.
* The on-disk set of generation directories of one interval is modelled by the
  `Finset ℕ` of its indices (the repository's data model keeps at most one
  directory per `(interval, index)` pair).  `os.rename` onto an existing
  (non-empty) generation directory fails on POSIX, so the embedded rename
  yields `none` when its target index is already present; `deltree` always
  succeeds.
* External process exit codes are oracle parameters (`ℕ`); a raising Python
  call is embedded as an `Except`/`Option` error value.
* Python `dict`s are association lists in insertion order with nodup keys.
-/

set_option maxRecDepth 10000

namespace Backupcopter

/-! ## Python strings -/

/-- A Python `str`, modelled as its list of characters. -/
abbrev Str := List Char

/-- Python `s.startswith(pre)`. -/
def startswith (s pre : Str) : Bool := pre.isPrefixOf s

/-- Python `s.endswith(suf)`. -/
def endswith (s suf : Str) : Bool := suf.isSuffixOf s

/-- The path separator `"/"`. -/
def slash : Str := ['/']

/-- POSIX `os.path.join(a, b)` for two components: an absolute second
component discards the first; otherwise the components are joined, adding a
separator unless the first is empty or already ends in one. -/
def os_path_join (a b : Str) : Str :=
  if startswith b slash then b
  else if a = [] ∨ endswith a slash then a ++ b
  else a ++ slash ++ b

/-! ## `bcopter/shift.py`: interval rotation (`do_shift`)

`do_shift(context, interval)` lists the existing generation indices of the
interval, sorts them in descending order and processes each index `i`: when
`my_depth > 0 and i >= my_depth - 1` the directory is deleted, otherwise it is
renamed from `<interval>.<i>` to `<interval>.<i+1>`.  The state is the finset
of existing indices of the interval being shifted. -/

/-- One filesystem operation performed by `do_shift` on the interval's
generation directories: deletion of index `i`, or rename of index `src` to
index `dst`. -/
inductive ShiftOp : Type
  | del (i : ℕ)
  | ren (src dst : ℕ)
  deriving DecidableEq

/-- `True` on deletion operations. -/
def ShiftOp.isDel : ShiftOp → Bool
  | .del _ => true
  | .ren _ _ => false

/-- The body of `do_shift`'s `for index, dirname in indicies:` loop, folded
over the (descending) index list `l` with current index set `s`.  A rename
whose target index already exists fails (`none`), since `os.rename` cannot
replace a non-empty directory; the returned list records the operations in
execution order. -/
def do_shift_list (depth : ℕ) : List ℕ → Finset ℕ → Option (Finset ℕ × List ShiftOp)
  | [], s => some (s, [])
  | i :: rest, s =>
    if 0 < depth ∧ depth - 1 ≤ i then
      (do_shift_list depth rest (s.erase i)).map (fun r => (r.1, ShiftOp.del i :: r.2))
    else if i + 1 ∈ s.erase i then
      none
    else
      (do_shift_list depth rest (insert (i + 1) (s.erase i))).map
        (fun r => (r.1, ShiftOp.ren i (i + 1) :: r.2))

/-- `indicies.sort(reverse=True)`: sort the index list produced by
`interval_indicies` (whose order `os.listdir` leaves arbitrary) in descending
order.  Python's sort is a stable comparison sort; a stable insertion sort
with `(· ≥ ·)` matches it. -/
def sorted_desc (idx : List ℕ) : List ℕ := List.insertionSort (· ≥ ·) idx

/-- `do_shift` for one interval: `idx` is the list of existing generation
indices found by `interval_indicies` (one directory per index, so `idx` has
no duplicates), `depth` the configured shift depth.  The indices are processed
in descending order, starting from the index set `idx.toFinset` on disk. -/
def do_shift (depth : ℕ) (idx : List ℕ) : Option (Finset ℕ × List ShiftOp) :=
  do_shift_list depth (sorted_desc idx) idx.toFinset

/-- The retention predicate: index `i` survives (is renamed rather than
deleted) iff depth is unlimited (`0`) or `i < depth - 1`. -/
def keeps (depth i : ℕ) : Prop := depth = 0 ∨ i < depth - 1

instance (depth i : ℕ) : Decidable (keeps depth i) := by
  unfold keeps; infer_instance

lemma keeps_iff_not_del (depth i : ℕ) : keeps depth i ↔ ¬(0 < depth ∧ depth - 1 ≤ i) := by
  unfold keeps
  omega

/-- Main characterization of the rotation loop.  If `l` is strictly descending
and the current state consists of the indices of `l` together with a set
`extra` of already-shifted indices lying strictly above `i + 1` for every
remaining `i ∈ l`, then the loop succeeds (no rename ever finds its target
occupied), the final index set shifts every kept index of `l` up by one and
keeps `extra`, and the operation trace deletes exactly the non-kept indices
and renames each kept index `i` to `i + 1`. -/
lemma do_shift_list_spec (depth : ℕ) :
    ∀ (l : List ℕ) (extra : Finset ℕ), l.Sorted (· > ·) →
      (∀ j ∈ extra, ∀ i ∈ l, i + 1 < j) →
      do_shift_list depth l (l.toFinset ∪ extra) =
        some ((l.toFinset.filter (keeps depth)).image (· + 1) ∪ extra,
          l.map (fun i => if 0 < depth ∧ depth - 1 ≤ i then ShiftOp.del i
            else ShiftOp.ren i (i + 1)))
  | [], extra, _, _ => by
    simp [do_shift_list]
  | i :: l, extra, hsort, hextra => by
    have hl : l.Sorted (· > ·) := hsort.of_cons
    have hlt : ∀ b ∈ l, b < i := fun b hb => List.rel_of_sorted_cons hsort b hb
    have hi_notin_l : i ∉ l.toFinset := by
      simp only [List.mem_toFinset]
      intro h
      exact lt_irrefl i (hlt i h)
    have hi_notin_extra : i ∉ extra := by
      intro h
      have := hextra i h i (List.mem_cons_self i l)
      omega
    have herase : ((i :: l).toFinset ∪ extra).erase i = l.toFinset ∪ extra := by
      rw [List.toFinset_cons, Finset.insert_union, Finset.erase_insert]
      simp only [Finset.mem_union]
      rintro (h | h)
      · exact hi_notin_l h
      · exact hi_notin_extra h
    by_cases hdel : 0 < depth ∧ depth - 1 ≤ i
    · -- deletion branch
      have hrec := do_shift_list_spec depth l extra hl
        (fun j hj i' hi' => hextra j hj i' (List.mem_cons_of_mem i hi'))
      rw [do_shift_list, if_pos hdel, herase, hrec]
      simp only [Option.map_some']
      congr 2
      · rw [List.toFinset_cons, Finset.filter_insert,
          if_neg (fun hk => (keeps_iff_not_del depth i).mp hk hdel)]
      · rw [List.map_cons, if_pos hdel]
    · -- rename branch
      have hkeep : keeps depth i := (keeps_iff_not_del depth i).mpr hdel
      have hcoll : i + 1 ∉ (l.toFinset ∪ extra) := by
        simp only [Finset.mem_union, List.mem_toFinset]
        rintro (h | h)
        · exact absurd (hlt _ h) (by omega)
        · have := hextra _ h i (List.mem_cons_self i l)
          omega
      have hstate : insert (i + 1) (l.toFinset ∪ extra) =
          l.toFinset ∪ (insert (i + 1) extra) := by
        rw [Finset.union_insert]
      have hrec := do_shift_list_spec depth l (insert (i + 1) extra) hl ?_
      · rw [do_shift_list, if_neg hdel, herase, if_neg hcoll, hstate, hrec]
        simp only [Option.map_some']
        congr 2
        · rw [List.toFinset_cons, Finset.filter_insert, if_pos hkeep,
            Finset.image_insert, Finset.insert_union, Finset.union_insert]
        · rw [List.map_cons, if_neg hdel]
      · rintro j hj i' hi'
        rcases Finset.mem_insert.mp hj with rfl | hj
        · exact Nat.succ_lt_succ (hlt i' hi')
        · exact hextra j hj i' (List.mem_cons_of_mem i hi')

lemma sorted_desc_perm (idx : List ℕ) : List.Perm (sorted_desc idx) idx :=
  List.perm_insertionSort (· ≥ ·) idx

lemma sorted_desc_sorted (idx : List ℕ) (h : idx.Nodup) :
    (sorted_desc idx).Sorted (· > ·) := by
  have hge : (sorted_desc idx).Sorted (· ≥ ·) :=
    List.sorted_insertionSort (· ≥ ·) idx
  have hnd : (sorted_desc idx).Nodup := (sorted_desc_perm idx).nodup_iff.mpr h
  exact (hge.and hnd).imp (fun hab => lt_of_le_of_ne hab.1 (Ne.symm hab.2))

lemma sorted_desc_toFinset (idx : List ℕ) : (sorted_desc idx).toFinset = idx.toFinset :=
  List.toFinset_eq_of_perm _ _ (sorted_desc_perm idx)

/-- `do_shift` on a duplicate-free index list always succeeds, and both its
final index set and its operation trace are fully characterized. -/
lemma do_shift_spec (depth : ℕ) (idx : List ℕ) (h : idx.Nodup) :
    do_shift depth idx =
      some ((idx.toFinset.filter (keeps depth)).image (· + 1),
        (sorted_desc idx).map (fun i => if 0 < depth ∧ depth - 1 ≤ i then ShiftOp.del i
          else ShiftOp.ren i (i + 1))) := by
  have hspec := do_shift_list_spec depth (sorted_desc idx) ∅ (sorted_desc_sorted idx h)
    (by simp)
  rw [sorted_desc_toFinset, Finset.union_empty, Finset.union_empty] at hspec
  unfold do_shift
  exact hspec

/-- C1: for every duplicate-free starting list of existing generation indices
and every configured depth, `do_shift` succeeds (in particular no rename ever
finds its target directory occupied, thanks to the strictly descending
processing order — a rename onto an existing index would return `none`), the
resulting index set is exactly `{i+1 : i ∈ old, i < depth-1}` for depth ≥ 1
(indices ≥ depth-1 are deleted, not shifted) and `{i+1 : i ∈ old}` for
depth 0 (unlimited: nothing deleted), and the operation trace processes the
indices in descending order, deleting exactly the surplus indices and
renaming each other index `i` to `i+1`. -/
theorem do_shift_rotates_and_prunes (depth : ℕ) (idx : List ℕ) (h : idx.Nodup) :
    (do_shift depth idx).map Prod.fst =
      some (if depth = 0 then idx.toFinset.image (· + 1)
        else (idx.toFinset.filter (fun i => i < depth - 1)).image (· + 1)) ∧
    (do_shift depth idx).map Prod.snd =
      some ((sorted_desc idx).map (fun i =>
        if 0 < depth ∧ depth - 1 ≤ i then ShiftOp.del i else ShiftOp.ren i (i + 1))) := by
  rw [do_shift_spec depth idx h]
  refine ⟨?_, rfl⟩
  simp only [Option.map_some']
  congr 1
  by_cases h0 : depth = 0
  · subst h0
    rw [if_pos rfl]
    congr 1
    apply Finset.filter_true_of_mem
    intro i _
    exact Or.inl rfl
  · rw [if_neg h0]
    congr 1
    apply Finset.filter_congr
    intro i _
    unfold keeps
    constructor
    · rintro (hz | hlt)
      · exact absurd hz h0
      · exact hlt
    · exact fun hlt => Or.inr hlt

/-- Witness for C1 at depth 3 and existing indices `[0, 1]`: the rotation
succeeds and produces the index set `{1, 2}` with trace
`[ren 1 2, ren 0 1]`. -/
theorem do_shift_rotates_and_prunes_witness :
    ([0, 1] : List ℕ).Nodup ∧
      (do_shift 3 [0, 1]).map Prod.fst =
        some (if (3 : ℕ) = 0 then ([0, 1] : List ℕ).toFinset.image (· + 1)
          else (([0, 1] : List ℕ).toFinset.filter (fun i => i < 3 - 1)).image (· + 1)) :=
  ⟨by decide, (do_shift_rotates_and_prunes 3 [0, 1] (by decide)).1⟩

/-- Helper: the operation trace of the rotation loop is empty exactly when
the processed index list is empty (each processed index contributes one
operation). -/
lemma do_shift_list_ops_nil (depth : ℕ) :
    ∀ (l : List ℕ) (s : Finset ℕ),
      (do_shift_list depth l s).map Prod.snd = some [] ↔ l = []
  | [], s => by simp [do_shift_list]
  | i :: l, s => by
    rw [do_shift_list]
    constructor
    · intro hsome
      by_cases hdel : 0 < depth ∧ depth - 1 ≤ i
      · rw [if_pos hdel] at hsome
        cases hrec : do_shift_list depth l (s.erase i) with
        | none => rw [hrec] at hsome; simp at hsome
        | some r => rw [hrec] at hsome; simp at hsome
      · rw [if_neg hdel] at hsome
        by_cases hcoll : i + 1 ∈ s.erase i
        · rw [if_pos hcoll] at hsome
          simp at hsome
        · rw [if_neg hcoll] at hsome
          cases hrec : do_shift_list depth l (insert (i + 1) (s.erase i)) with
          | none => rw [hrec] at hsome; simp at hsome
          | some r => rw [hrec] at hsome; simp at hsome
    · intro hnil
      exact absurd hnil (List.cons_ne_nil i l)

/-- C2 counterexample: with the single existing index 1 (index 0 absent) and
depth 5, `do_shift` is *not* a no-op — it renames index 1 to index 2.  The
claim that `do_shift` does nothing whenever index 0 is absent is false for
this revision of `shift.py`, whose `do_shift` rotates unconditionally. -/
theorem do_shift_shifts_even_without_index0 :
    (0 : ℕ) ∉ ([1] : List ℕ) ∧
      (do_shift 5 [1]).map Prod.snd = some [ShiftOp.ren 1 2] ∧
      (do_shift 5 [1]).map Prod.snd ≠ some [] := by
  refine ⟨by decide, by decide, by decide⟩

/-- C2 amended: `do_shift` performs no deletion and no rename (is a no-op)
exactly when the interval's current index list is empty; whenever any index
is present (whether or not index 0 is among them), rotation work is
performed. -/
theorem do_shift_noop_iff_empty (depth : ℕ) (idx : List ℕ) :
    (do_shift depth idx).map Prod.snd = some [] ↔ idx = [] := by
  unfold do_shift
  rw [do_shift_list_ops_nil]
  unfold sorted_desc
  constructor
  · intro hnil
    have := List.perm_insertionSort (· ≥ ·) idx
    rw [hnil] at this
    exact this.symm.eq_nil
  · rintro rfl
    rfl

/-! ## `bcopter/backup.py`: `CmdBackup.run` — rotation sequencing

`CmdBackup.run` sorts the requested intervals by their position in the
configured interval list (descending, Python's stable sort), pops the last
(lowest) one as `backup_interval` and shifts it.  If
`intervals_run_only_lowest` is set and `backup_interval` is not the lowest
configured interval, the backup is skipped and `backup_interval` is appended
back onto the request list; then every interval remaining in the request list
is shifted and `clone_intervals` hard-links `backup_interval.0` into each of
their generation-0 directories. -/

/-- Interval name constants used in concrete runs. -/
def sDaily : Str := "daily".toList

/-- The interval name `"weekly"`. -/
def sWeekly : Str := "weekly".toList

/-- A canonical duplicate-free directory listing of an index set, standing in
for the arbitrary order in which `os.listdir` reports the interval's
generation directories (`do_shift` sorts the listing itself, so its result
does not depend on the listing order). -/
def mk_list (s : Finset ℕ) : List ℕ := (List.range (s.sup id + 1)).filter (· ∈ s)

/-- The destination volume's state: the set of existing generation indices of
each interval. -/
def VolState := Str → Finset ℕ

/-- `shift.do_shift(conf, iv)` acting on the volume state: list the interval's
directory indices, rotate them, and record the new index set. -/
def shift_interval (depths : Str → ℕ) (st : VolState) (iv : Str) : Option VolState :=
  (do_shift (depths iv) (mk_list (st iv))).map
    (fun r => fun J => if J = iv then r.1 else st J)

/-- `args.intervals.sort(key=conf.base.intervals.index, reverse=True)`:
Python's stable descending sort by position in the configured interval
list. -/
def sort_intervals_desc (configured : List Str) (requested : List Str) : List Str :=
  List.insertionSort
    (fun a b => configured.indexOf b ≤ configured.indexOf a) requested

/-- `clone_intervals(conf, src, dests)` acting on the volume state: each clone
runs `cp -al <src>.0 <dest>.0`.  When `<src>.0` exists the clone creates the
destination's generation 0; when it does not, `cp` exits non-zero, which
`clone_intervals` merely logs as a warning, leaving the state unchanged. -/
def clone_intervals_state (st : VolState) (src : Str) (dests : List Str) : VolState :=
  if 0 ∈ st src then
    fun J => if J ∈ dests ∧ 0 ∉ st J then insert 0 (st J) else st J
  else st

/-- `CmdBackup.run(args, conf)` restricted to its effect on the intervals'
generation directories.  `none` models an error exit (unknown interval name,
which Python turns into `return 3`, or a failed rename).  In the non-skip
branch `do_backup` creates the `<interval>.0` directory for its targets,
modelled by inserting index 0. -/
def cmd_backup_run (configured : List Str) (runOnlyLowest : Bool) (depths : Str → ℕ)
    (requested : List Str) (st : VolState) : Option VolState :=
  if requested.all (fun iv => configured.contains iv) then
    let sorted := sort_intervals_desc configured requested
    match sorted.getLast? with
    | none => none
    | some backup_interval =>
      let rest := sorted.dropLast
      match shift_interval depths st backup_interval with
      | none => none
      | some st1 =>
        let skip := runOnlyLowest && (configured.indexOf backup_interval != 0)
        let st2 := if skip then st1
          else fun J => if J = backup_interval then insert 0 (st1 J) else st1 J
        let rest2 := if skip then rest ++ [backup_interval] else rest
        match rest2.foldlM (shift_interval depths) st2 with
        | none => none
        | some st3 => some (clone_intervals_state st3 backup_interval rest2)
  else none

/-- The depth configuration `daily ↦ 3, weekly ↦ 2` used in the C3 run. -/
def depthsC3 : Str → ℕ := fun iv => if iv = sWeekly then 2 else 3

/-- The starting state of the C3 run: `weekly.0` exists and nothing else. -/
def stC3 : VolState := fun iv => if iv = sWeekly then {0} else ∅

/-- C3 failing run: intervals configured `[daily, weekly]` with weekly
retention 2, `intervals_run_only_lowest` set, invocation `backup weekly`,
starting from the single existing generation `weekly.0`.  The run skips the
backup (weekly is not the lowest configured interval) but shifts `weekly`
twice — once before the skip decision and once more in the loop over the
remaining request list, to which the skipped interval was appended back — so
the pre-existing generation at index `0 < depth-1 = 1` is first renamed to
index 1 and then deleted (`1 ≥ depth-1`).  The final state is the empty index
set instead of the claimed `{1}`: the run removed a generation needlessly,
contradicting the claim (and destroying the only existing backup). -/
theorem cmd_backup_skip_shifts_twice :
    (cmd_backup_run [sDaily, sWeekly] true depthsC3 [sWeekly] stC3).map
        (fun f => f sWeekly) = some ∅ ∧
      (cmd_backup_run [sDaily, sWeekly] true depthsC3 [sWeekly] stC3).map
        (fun f => f sWeekly) ≠ some ({1} : Finset ℕ) := by
  refine ⟨by decide, by decide⟩

/-! ## `bcopter/context.py`: `LoggedProcess.check_call` and `Context.rsync` -/

/-- `LoggedProcess.check_call`: raises `CalledProcessError(returncode)` when
the process exits non-zero, modelled by the exit code of the underlying
process (in dry-run mode the `NullProcess` always reports 0). -/
def check_call (code : ℕ) : Except ℕ Unit :=
  if code ≠ 0 then Except.error code else Except.ok ()

/-- `Context.rsync`, given the exit code of the composed rsync invocation.
Returns `(raised, warned)`: `raised = some c` models a
`CalledProcessError(c)` propagating to the caller, and `warned` records
whether the partial-transfer warning was logged.  Exit codes 23 and 24 are
caught and only warned about; every other non-zero code is re-raised. -/
def rsync (code : ℕ) : Option ℕ × Bool :=
  match check_call code with
  | Except.ok () => (none, false)
  | Except.error c => if c = 23 ∨ c = 24 then (none, true) else (some c, false)

/-- C6: `Context.rsync` raises exactly when the sync tool's exit code is
non-zero and not one of the two partial-transfer codes 23 and 24 (and the
propagated error carries that exit code); codes 23 and 24 return normally
with the partial-transfer warning logged; code 0 returns normally without
warning. -/
theorem rsync_partial_transfer_contract (code : ℕ) :
    ((rsync code).1 = some code ↔ code ≠ 0 ∧ code ≠ 23 ∧ code ≠ 24) ∧
    ((rsync code).1 = none ↔ code = 0 ∨ code = 23 ∨ code = 24) ∧
    ((rsync code).2 = true ↔ code = 23 ∨ code = 24) ∧
    rsync 0 = (none, false) := by
  unfold rsync check_call
  rcases eq_or_ne code 0 with rfl | h0
  · simp
  · rcases eq_or_ne code 23 with rfl | h23
    · simp
    · rcases eq_or_ne code 24 with rfl | h24
      · simp
      · simp [h0, h23, h24]

/-! ## `bcopter/backup.py`: `initialize_btrfs` / `finalize_btrfs` (C4)

`initialize_btrfs` creates a read-only snapshot for each configured volume
root, recording `root → os.path.join(sv_dest, root.replace("/", "__"))`.
Its `try` block is guarded by a bare `except:` that calls
`finalize_btrfs(ctx, subvolumes)` — deleting the snapshots taken so far —
and then falls through to `return subvolumes` *without re-raising*. -/

/-- Python `root.replace("/", "__")`. -/
def replace_slash (s : Str) : Str :=
  s.flatMap (fun c => if c = '/' then ['_', '_'] else [c])

/-- Outcome of `initialize_btrfs`: `result = some m` means the call returned
normally with the mapping `m`; `result = none` would mean an exception
propagated to the caller (this code never produces it).  `onDisk` lists the
snapshots still existing on disk afterwards. -/
structure BtrfsInit where
  result : Option (List (Str × Str))
  onDisk : List Str

/-- The `for sv_root in ctx.base.source_btrfs_volumes:` loop of
`initialize_btrfs`.  `fails r = true` means the snapshot command (or the
stale-snapshot deletion) for root `r` raises `CalledProcessError`; the bare
`except:` then runs `finalize_btrfs` on the mapping accumulated so far
(deleting those snapshots from disk) and control falls through to
`return subvolumes`, still returning the now-stale mapping normally. -/
def initialize_btrfs_loop (sv_dest : Str) (fails : Str → Bool) :
    List Str → List (Str × Str) → BtrfsInit
  | [], acc => ⟨some acc, acc.map Prod.snd⟩
  | r :: rest, acc =>
    if fails r then ⟨some acc, []⟩
    else initialize_btrfs_loop sv_dest fails rest
      (acc ++ [(r, os_path_join sv_dest (replace_slash r))])

/-- `initialize_btrfs(ctx)`: no snapshot directory configured means an early
normal return with the empty mapping; otherwise run the snapshot loop. -/
def initialize_btrfs (sv_dest : Str) (fails : Str → Bool) (roots : List Str) : BtrfsInit :=
  if sv_dest = [] then ⟨some [], []⟩
  else initialize_btrfs_loop sv_dest fails roots []

/-- The volume root `"/"`. -/
def sRoot : Str := "/".toList

/-- The volume root `"/home"`. -/
def sHome : Str := "/home".toList

/-- The snapshot staging directory `"/snaps"`. -/
def sSnapsDir : Str := "/snaps".toList

/-- The snapshot path `"/snaps/__"` recorded for root `"/"`. -/
def sSnapsRootSnap : Str := "/snaps/__".toList

/-- Failure oracle for the C4 run: snapshot creation fails for `"/home"`. -/
def failsHome : Str → Bool := fun r => r = sHome

/-- C4 failing run: roots `["/", "/home"]`, snapshot creation fails on
`"/home"` after the snapshot of `"/"` was taken.  `initialize_btrfs` cleans
up the partial snapshot (disk state empty) but then *returns normally* —
`result = some` — handing its caller the stale mapping `{"/" ↦ "/snaps/__"}`
whose snapshot no longer exists, because the bare `except:` never re-raises.
The claim that acquisition never returns normally after a snapshot-creation
failure is the documented intent, and the code violates it. -/
theorem initialize_btrfs_swallows_failure :
    failsHome sHome = true ∧
      (initialize_btrfs sSnapsDir failsHome [sRoot, sHome]).result =
        some [(sRoot, sSnapsRootSnap)] ∧
      (initialize_btrfs sSnapsDir failsHome [sRoot, sHome]).onDisk = [] := by
  refine ⟨by decide, by decide, by decide⟩

/-! ## `bcopter/backup.py`: `BackupTransaction` (C5)

The destination of one transaction is modelled as an abstract state:
`absent` (no tree), `inProgress` (a partially synced tree as observed
mid-failure), `synced` (fully synchronized), or `linkCopy base` (a hard-link
copy of the directory `base`, as produced by `cp -al`).  The rollback's own
`deltree`/`cp -al` calls are modelled as succeeding. -/

/-- Observable state of a transaction's destination tree. -/
inductive DestState : Type
  | absent : DestState
  | inProgress : DestState
  | synced : DestState
  | linkCopy (base : Str) : DestState
  deriving DecidableEq

/-- The non-incremental (excluded-subtree) mirror syncs at the end of
`BackupTransaction.execute`: one `ctx.rsync` per exclusion, each with its own
exit code; the first raising invocation aborts the rest.  These syncs write
to the side area `non-incremental/...`, not to the transaction's destination
tree. -/
def run_non_incremental : List ℕ → Option ℕ
  | [] => none
  | c :: cs =>
    match (rsync c).1 with
    | some e => some e
    | none => run_non_incremental cs

/-- `BackupTransaction.execute()`.  Inputs: the designated link-base
(`linkdest`), the `rsync_linkdest` configuration flag, the exit code of the
bootstrap `cp -al` (used only when a link-base is designated while
`--link-dest` is disabled), the exit code of the main rsync, the exit codes
of the non-incremental syncs, and the initial destination state `d`.
Returns the propagating exception (if any) and the destination state at the
moment execute ends. -/
def txn_execute (linkdest : Option Str) (linkdest_enabled : Bool)
    (bootstrapCode mainCode : ℕ) (nonIncCodes : List ℕ) (_d : DestState) :
    Option ℕ × DestState :=
  match linkdest, linkdest_enabled with
  | some _, false =>
    match check_call bootstrapCode with
    | Except.error e => (some e, DestState.inProgress)
    | Except.ok () =>
      match (rsync mainCode).1 with
      | some e => (some e, DestState.inProgress)
      | none =>
        match run_non_incremental nonIncCodes with
        | some e => (some e, DestState.synced)
        | none => (none, DestState.synced)
  | _, _ =>
    match (rsync mainCode).1 with
    | some e => (some e, DestState.inProgress)
    | none =>
      match run_non_incremental nonIncCodes with
      | some e => (some e, DestState.synced)
      | none => (none, DestState.synced)


/-- The whole `with BackupTransaction(...) as transaction:
transaction.execute()` block: run `execute`, then `__exit__`, which on an
exception deletes the destination tree and — when a link-base was designated
— reconstitutes it as a hard-link copy of the link-base, re-raising the
original exception. -/
def txn_run (linkdest : Option Str) (linkdest_enabled : Bool)
    (bootstrapCode mainCode : ℕ) (nonIncCodes : List ℕ) (d : DestState) :
    Option ℕ × DestState :=
  match txn_execute linkdest linkdest_enabled bootstrapCode mainCode nonIncCodes d with
  | (none, d') => (none, d')
  | (some e, _) =>
    (some e,
      match linkdest with
      | none => DestState.absent
      | some l => DestState.linkCopy l)

/-- C5: whatever happens inside `execute()` (bootstrap failure, sync failure,
non-incremental sync failure, success), the destination after the
transaction block is fully synchronized when no exception escaped, and on
any exception it is removed and — exactly when a link-base was designated —
reconstituted as a hard-link copy of the link-base; it is never left in the
partially-synced intermediate state. -/
theorem backup_transaction_rollback (linkdest : Option Str) (linkdest_enabled : Bool)
    (bootstrapCode mainCode : ℕ) (nonIncCodes : List ℕ) (d : DestState) :
    (txn_run linkdest linkdest_enabled bootstrapCode mainCode nonIncCodes d).2 =
      (match (txn_run linkdest linkdest_enabled bootstrapCode mainCode nonIncCodes d).1 with
        | none => DestState.synced
        | some _ =>
          match linkdest with
          | none => DestState.absent
          | some l => DestState.linkCopy l) ∧
    (txn_run linkdest linkdest_enabled bootstrapCode mainCode nonIncCodes d).2 ≠
      DestState.inProgress := by
  unfold txn_run txn_execute
  rcases linkdest with _ | l
  · rcases h : (rsync mainCode).1 with _ | e
    · rcases h2 : run_non_incremental nonIncCodes with _ | e2 <;> exact ⟨rfl, by simp⟩
    · exact ⟨rfl, by simp⟩
  · rcases linkdest_enabled with _ | _
    · rcases h0 : check_call bootstrapCode with e | u
      · exact ⟨rfl, by simp⟩
      · rcases h : (rsync mainCode).1 with _ | e
        · rcases h2 : run_non_incremental nonIncCodes with _ | e2 <;> exact ⟨rfl, by simp⟩
        · exact ⟨rfl, by simp⟩
    · rcases h : (rsync mainCode).1 with _ | e
      · rcases h2 : run_non_incremental nonIncCodes with _ | e2 <;> exact ⟨rfl, by simp⟩
      · exact ⟨rfl, by simp⟩

/-! ## `bcopter/backup.py`: `substitute_btrfs_snapshot` (C7, C10)

The snapshot mapping `subvolumes` is a Python dict, modelled as an
association list in insertion order with duplicate-free keys.  The function
scans all `(root, snapshot)` pairs, remembers the matching root of greatest
length (`len(sv_root) > len(longest_match)`, so the first of any equally
long matches wins — matching prefixes of equal length are in fact equal
strings), and rewrites the path. -/

/-- The body of the `for sv_root, sv_new_root in subvolumes.items():` loop of
`substitute_btrfs_snapshot`, as one fold step over the accumulator
`(longest_match, substitute)`. -/
def pick_step (source_path : Str) (acc : Option (Str × Str)) (e : Str × Str) :
    Option (Str × Str) :=
  if startswith source_path e.1 then
    match acc with
    | none => some e
    | some a => if a.1.length < e.1.length then some e else acc
  else acc

/-- The completed scan: the `(longest_match, substitute)` pair selected by
the loop, if any root matched. -/
def pick_root (subvolumes : List (Str × Str)) (source_path : Str) : Option (Str × Str) :=
  subvolumes.foldl (pick_step source_path) none

/-- `if new_path.startswith("/"): new_path = new_path[1:]`. -/
def strip_leading_slash (s : Str) : Str :=
  if startswith s slash then s.drop 1 else s

/-- `substitute_btrfs_snapshot(subvolumes, source_path)`: pick the longest
matching root; if none matches return the path unchanged, otherwise drop the
matched prefix, strip one leading separator and join the remainder onto the
root's snapshot path. -/
def substitute_btrfs_snapshot (subvolumes : List (Str × Str)) (source_path : Str) : Str :=
  match pick_root subvolumes source_path with
  | none => source_path
  | some rs => os_path_join rs.2 (strip_leading_slash (source_path.drop rs.1.length))

lemma pick_step_nomatch {p : Str} {e : Str × Str} (acc : Option (Str × Str))
    (he : ¬ startswith p e.1 = true) : pick_step p acc e = acc := by
  unfold pick_step
  rw [if_neg he]

lemma pick_step_none {p : Str} {e : Str × Str}
    (he : startswith p e.1 = true) : pick_step p none e = some e := by
  unfold pick_step
  rw [if_pos he]

lemma pick_step_some_lt {p : Str} {e a : Str × Str} (he : startswith p e.1 = true)
    (hlen : a.1.length < e.1.length) : pick_step p (some a) e = some e := by
  unfold pick_step
  rw [if_pos he]
  exact if_pos hlen

lemma pick_step_some_ge {p : Str} {e a : Str × Str} (he : startswith p e.1 = true)
    (hlen : ¬ a.1.length < e.1.length) : pick_step p (some a) e = some a := by
  unfold pick_step
  rw [if_pos he]
  exact if_neg hlen

/-- The scan yields `none` exactly when the accumulator starts at `none` and
no entry's root matches. -/
lemma foldl_pick_none (p : Str) :
    ∀ (m : List (Str × Str)) (acc : Option (Str × Str)),
      m.foldl (pick_step p) acc = none ↔
        acc = none ∧ ∀ e ∈ m, ¬ startswith p e.1 = true
  | [], acc => by simp
  | e :: m, acc => by
    rw [List.foldl_cons, foldl_pick_none p m (pick_step p acc e)]
    constructor
    · rintro ⟨hstep, hrest⟩
      by_cases he : startswith p e.1 = true
      · exfalso
        cases hacc0 : acc with
        | none =>
          rw [hacc0, pick_step_none he] at hstep
          exact Option.some_ne_none e hstep
        | some a =>
          by_cases hlen : a.1.length < e.1.length
          · rw [hacc0, pick_step_some_lt he hlen] at hstep
            exact Option.some_ne_none e hstep
          · rw [hacc0, pick_step_some_ge he hlen] at hstep
            exact Option.some_ne_none a hstep
      · rw [pick_step_nomatch acc he] at hstep
        refine ⟨hstep, ?_⟩
        intro e' he'
        rcases List.mem_cons.mp he' with rfl | he'
        · exact he
        · exact hrest e' he'
    · rintro ⟨hacc, hall⟩
      have he : ¬ startswith p e.1 = true := hall e (List.mem_cons_self e m)
      rw [pick_step_nomatch acc he]
      exact ⟨hacc, fun e' he' => hall e' (List.mem_cons_of_mem e he')⟩

/-- Provenance and maximality of the scan's result: a selected pair either
comes from the list (and its root matches) or was the initial accumulator;
its root is at least as long as every matching root in the list and at least
as long as the initial accumulator's root. -/
lemma foldl_pick_spec (p : Str) :
    ∀ (m : List (Str × Str)) (acc : Option (Str × Str)) (b : Str × Str),
      m.foldl (pick_step p) acc = some b →
        ((b ∈ m ∧ startswith p b.1 = true) ∨ acc = some b) ∧
        (∀ e ∈ m, startswith p e.1 = true → e.1.length ≤ b.1.length) ∧
        (∀ a, acc = some a → a.1.length ≤ b.1.length)
  | [], acc, b => by
    intro hb
    simp only [List.foldl_nil] at hb
    refine ⟨Or.inr hb, by simp, ?_⟩
    intro a ha
    rw [hb] at ha
    cases Option.some_inj.mp ha
    exact le_refl _
  | e :: m, acc, b => by
    intro hb
    rw [List.foldl_cons] at hb
    obtain ⟨hprov, hmax, haccb⟩ := foldl_pick_spec p m (pick_step p acc e) b hb
    by_cases he : startswith p e.1 = true
    · -- the head matches; compute what the step produced
      have hstep : (acc = none ∧ pick_step p acc e = some e) ∨
          (∃ a, acc = some a ∧ a.1.length < e.1.length ∧ pick_step p acc e = some e) ∨
          (∃ a, acc = some a ∧ ¬ a.1.length < e.1.length ∧ pick_step p acc e = some a) := by
        cases hacc0 : acc with
        | none => exact Or.inl ⟨rfl, pick_step_none he⟩
        | some a =>
          by_cases hlen : a.1.length < e.1.length
          · exact Or.inr (Or.inl ⟨a, rfl, hlen, pick_step_some_lt he hlen⟩)
          · exact Or.inr (Or.inr ⟨a, rfl, hlen, pick_step_some_ge he hlen⟩)
      have hstep_le : e.1.length ≤ b.1.length := by
        rcases hstep with ⟨-, hs⟩ | ⟨a, -, -, hs⟩ | ⟨a, -, hlen, hs⟩
        · exact haccb e hs
        · exact haccb e hs
        · exact le_trans (le_of_not_lt hlen) (haccb a hs)
      refine ⟨?_, ?_, ?_⟩
      · -- provenance
        rcases hprov with ⟨hm, hP⟩ | hq
        · exact Or.inl ⟨List.mem_cons_of_mem e hm, hP⟩
        · rcases hstep with ⟨-, hs⟩ | ⟨a, -, -, hs⟩ | ⟨a, ha0, -, hs⟩
          · rw [hs] at hq
            cases Option.some_inj.mp hq
            exact Or.inl ⟨List.mem_cons_self e m, he⟩
          · rw [hs] at hq
            cases Option.some_inj.mp hq
            exact Or.inl ⟨List.mem_cons_self e m, he⟩
          · rw [hs] at hq
            cases Option.some_inj.mp hq
            rw [ha0] at *
            exact Or.inr rfl
      · intro e' he' hP'
        rcases List.mem_cons.mp he' with rfl | he'
        · exact hstep_le
        · exact hmax e' he' hP'
      · intro a ha
        rcases hstep with ⟨ha0, -⟩ | ⟨a', ha0, hlen, hs⟩ | ⟨a', ha0, hlen, hs⟩
        · rw [ha0] at ha
          exact absurd ha (Option.noConfusion)
        · rw [ha0] at ha
          cases Option.some_inj.mp ha
          exact le_trans (le_of_lt hlen) (haccb e hs)
        · rw [ha0] at ha
          cases Option.some_inj.mp ha
          exact haccb a hs
    · -- the head does not match: the step leaves the accumulator unchanged
      rw [pick_step_nomatch acc he] at hprov haccb
      refine ⟨?_, ?_, haccb⟩
      · rcases hprov with ⟨hm, hP⟩ | hq
        · exact Or.inl ⟨List.mem_cons_of_mem e hm, hP⟩
        · exact Or.inr hq
      · intro e' he' hP'
        rcases List.mem_cons.mp he' with rfl | he'
        · exact absurd hP' he
        · exact hmax e' he' hP'

/-- In an association list with duplicate-free keys, two entries with the
same key are the same entry. -/
lemma key_nodup_eq :
    ∀ (m : List (Str × Str)), (m.map Prod.fst).Nodup →
      ∀ a b : Str × Str, a ∈ m → b ∈ m → a.1 = b.1 → a = b
  | [], _, a, b => by simp
  | e :: m, hnd, a, b => by
    intro ha hb hkey
    rw [List.map_cons, List.nodup_cons] at hnd
    obtain ⟨hhead, htail⟩ := hnd
    rcases List.mem_cons.mp ha with ha1 | ha2
    · rcases List.mem_cons.mp hb with hb1 | hb2
      · rw [ha1, hb1]
      · exfalso
        have hmem : b.1 ∈ m.map Prod.fst := List.mem_map_of_mem Prod.fst hb2
        rw [← hkey, ha1] at hmem
        exact hhead hmem
    · rcases List.mem_cons.mp hb with hb1 | hb2
      · exfalso
        have hmem : a.1 ∈ m.map Prod.fst := List.mem_map_of_mem Prod.fst ha2
        rw [hkey, hb1] at hmem
        exact hhead hmem
      · exact key_nodup_eq m htail a b ha2 hb2 hkey

/-- Two prefixes of the same string that have the same length are equal. -/
lemma startswith_eq_of_length_eq {p a b : Str}
    (ha : startswith p a = true) (hb : startswith p b = true)
    (hlen : a.length = b.length) : a = b := by
  unfold startswith at ha hb
  exact List.IsPrefix.eq_of_length
    (List.prefix_of_prefix_length_le (List.isPrefixOf_iff_prefix.mp ha)
      (List.isPrefixOf_iff_prefix.mp hb) (le_of_eq hlen)) hlen

/-- C7: for every snapshot mapping (duplicate-free keys, as a Python dict
guarantees) and every source path: a path matched by no root passes through
unmodified, and whenever some root matches, the root selected is the one of
maximal length (with nested roots such as `/` and `/home`, the path
`/home/user/file` is rewritten against `/home`, not `/`), and the result
replaces that root by its snapshot path with the remainder of the path
carried over (one leading separator of the remainder being absorbed by the
path join). -/
theorem substitute_btrfs_snapshot_longest_root
    (m : List (Str × Str)) (p : Str) (hnd : (m.map Prod.fst).Nodup) :
    ((∀ e ∈ m, ¬ startswith p e.1 = true) → substitute_btrfs_snapshot m p = p) ∧
    (∀ r v, (r, v) ∈ m → startswith p r = true →
      (∀ e ∈ m, startswith p e.1 = true → e.1.length ≤ r.length) →
      substitute_btrfs_snapshot m p =
        os_path_join v (strip_leading_slash (p.drop r.length))) := by
  constructor
  · intro hnone
    unfold substitute_btrfs_snapshot pick_root
    rw [(foldl_pick_none p m none).mpr ⟨rfl, hnone⟩]
  · intro r v hmem hP hmax
    have hsome : ∃ b, pick_root m p = some b := by
      rcases hpick : pick_root m p with _ | b
      · obtain ⟨-, hall⟩ := (foldl_pick_none p m none).mp hpick
        exact absurd hP (hall (r, v) hmem)
      · exact ⟨b, rfl⟩
    obtain ⟨b, hb⟩ := hsome
    obtain ⟨hprov, hmaxb, -⟩ := foldl_pick_spec p m none b hb
    rcases hprov with ⟨hbm, hbP⟩ | hcontra
    · have hlen : b.1.length = r.length :=
        le_antisymm (hmax b hbm hbP) (hmaxb (r, v) hmem hP)
      have hkey : b.1 = r := startswith_eq_of_length_eq hbP hP hlen
      have hbrv : b = (r, v) := key_nodup_eq m hnd b (r, v) hbm hmem hkey
      unfold substitute_btrfs_snapshot
      rw [hb, hbrv]
    · exact absurd hcontra (by simp)

/-- The snapshot mapping `/ ↦ /snap/root`. -/
def sSnapRoot : Str := "/snap/root".toList

/-- The snapshot mapping `/home ↦ /snap/home`. -/
def sSnapHome : Str := "/snap/home".toList

/-- The source path `/home/user/file`. -/
def sHomeUserFile : Str := "/home/user/file".toList

/-- The rewritten path `/snap/home/user/file`. -/
def sSnapHomeUserFile : Str := "/snap/home/user/file".toList

/-- Witness for C7 on the spec's nested-roots example: with roots `/` and
`/home`, the path `/home/user/file` is rewritten to `/snap/home/user/file`
(the snapshot of `/home`, not of `/`). -/
theorem substitute_btrfs_snapshot_longest_root_witness :
    substitute_btrfs_snapshot [(sRoot, sSnapRoot), (sHome, sSnapHome)] sHomeUserFile =
      sSnapHomeUserFile := by
  have h := (substitute_btrfs_snapshot_longest_root
    [(sRoot, sSnapRoot), (sHome, sSnapHome)] sHomeUserFile (by decide)).2
    sHome sSnapHome (by decide) (by decide) ?_
  · exact h.trans (by decide)
  · intro e he hP
    rcases List.mem_cons.mp he with rfl | he
    · decide
    · rcases List.mem_cons.mp he with rfl | he
      · decide
      · exact absurd he (List.not_mem_nil e)

/-- The source path `/homework/file`, which is *not* inside the root
`/home` as a path, but does extend it as a raw string. -/
def sHomeworkFile : Str := "/homework/file".toList

/-- The rewrite `/snap/home/work/file` that raw-prefix matching produces
for `/homework/file`. -/
def sSnapHomeWorkFile : Str := "/snap/home/work/file".toList

/-- C10: root matching is by raw string prefix, not by path components.
With the single root `/home` mapped to `/snap/home`, the source path
`/homework/file` is treated as matching and rewritten to
`/snap/home/work/file` instead of passing through unmodified. -/
theorem substitute_btrfs_snapshot_raw_prefix :
    substitute_btrfs_snapshot [(sHome, sSnapHome)] sHomeworkFile = sSnapHomeWorkFile ∧
      substitute_btrfs_snapshot [(sHome, sSnapHome)] sHomeworkFile ≠ sHomeworkFile := by
  refine ⟨by decide, by decide⟩

/-! ## `bcopter/shift.py`: `clone_intervals` (C8)

`clone_intervals` starts one `cp -al` process per destination interval and
then repeats: one `for` pass calls `process.wait(timeout=10)` on every
outstanding process (a timeout leaves the process running for the next
round; a completion with non-zero exit logs a warning), remembering in
`remove_idx` the *last* index that completed during the pass; after the pass
the process at `remove_idx`, if any, is popped.  The loop ends when no
process is outstanding.  Each process is modelled by the number of wait
windows that still time out before it reports, plus its exit code and its
destination dirname. -/

/-- One outstanding clone process. -/
structure CloneProc : Type where
  remaining : ℕ
  exitcode : ℕ
  dirname : Str
  deriving DecidableEq

/-- The completion record of a process: destination dirname and exit code. -/
def cloneKey (p : CloneProc) : Str × ℕ := (p.dirname, p.exitcode)

/-- `process.wait(timeout=10)`: reports the exit code once `remaining` is 0
(and keeps reporting it on later waits), otherwise times out
(`TimeoutExpired`), consuming one wait window. -/
def waitPoll (p : CloneProc) : Option ℕ × CloneProc :=
  if p.remaining = 0 then (some p.exitcode, p)
  else (none, { p with remaining := p.remaining - 1 })

/-- One pass of the `for i, (process, dirname) in enumerate(processes):`
loop starting at index `i0`: every process is polled once; the returned
index is the last one whose wait completed during the pass (`remove_idx`,
overwritten left to right). -/
def passOne : List CloneProc → ℕ → List CloneProc × Option ℕ
  | [], _ => ([], none)
  | p :: rest, i0 =>
    ((waitPoll p).2 :: (passOne rest (i0 + 1)).1,
      match (passOne rest (i0 + 1)).2 with
      | some j => some j
      | none => if (waitPoll p).1.isSome then some i0 else none)

/-- Termination measure: one unit per outstanding process plus one per wait
window still to be consumed. -/
def cloneMeasure : List CloneProc → ℕ
  | [] => 0
  | p :: l => p.remaining + 1 + cloneMeasure l

/-- Combined bookkeeping for one pass: the pass preserves the number of
processes and their completion records, never increases the measure,
decreases it by the full list length when no process completed, and returns
an in-range index when one did. -/
lemma passOne_spec :
    ∀ (l : List CloneProc) (i0 : ℕ),
      (passOne l i0).1.length = l.length ∧
      cloneMeasure (passOne l i0).1 ≤ cloneMeasure l ∧
      ((passOne l i0).2 = none →
        cloneMeasure (passOne l i0).1 + l.length ≤ cloneMeasure l) ∧
      (∀ j, (passOne l i0).2 = some j → i0 ≤ j ∧ j < i0 + l.length) ∧
      (passOne l i0).1.map cloneKey = l.map cloneKey
  | [], i0 => by simp [passOne, cloneMeasure]
  | p :: rest, i0 => by
    obtain ⟨ihlen, ihle, ihnone, ihidx, ihmap⟩ := passOne_spec rest (i0 + 1)
    by_cases hrem : p.remaining = 0
    · have hw : waitPoll p = (some p.exitcode, p) := by
        unfold waitPoll
        rw [if_pos hrem]
      refine ⟨?_, ?_, ?_, ?_, ?_⟩
      · simp [passOne, hw, ihlen]
      · simp only [passOne, hw, cloneMeasure]
        omega
      · intro hnone
        exfalso
        simp only [passOne, hw] at hnone
        rcases hidx : (passOne rest (i0 + 1)).2 with _ | j1
        · rw [hidx] at hnone
          simp at hnone
        · rw [hidx] at hnone
          simp at hnone
      · intro j hj
        simp only [passOne, hw] at hj
        rcases hidx : (passOne rest (i0 + 1)).2 with _ | j1
        · rw [hidx] at hj
          simp only [Option.isSome_some, if_pos] at hj
          have heq := Option.some_inj.mp hj
          subst heq
          simp only [List.length_cons]
          omega
        · rw [hidx] at hj
          have heq := Option.some_inj.mp hj
          subst heq
          have := ihidx _ hidx
          simp only [List.length_cons]
          omega
      · simp [passOne, hw, ihmap, cloneKey]
    · have hw : waitPoll p = (none, { p with remaining := p.remaining - 1 }) := by
        unfold waitPoll
        rw [if_neg hrem]
      refine ⟨?_, ?_, ?_, ?_, ?_⟩
      · simp [passOne, hw, ihlen]
      · simp only [passOne, hw, cloneMeasure]
        omega
      · intro hnone
        simp only [passOne, hw] at hnone
        rcases hidx : (passOne rest (i0 + 1)).2 with _ | j1
        · have := ihnone hidx
          simp only [passOne, hw, cloneMeasure, List.length_cons]
          omega
        · rw [hidx] at hnone
          simp at hnone
      · intro j hj
        simp only [passOne, hw] at hj
        rcases hidx : (passOne rest (i0 + 1)).2 with _ | j1
        · rw [hidx] at hj
          simp at hj
        · rw [hidx] at hj
          have heq := Option.some_inj.mp hj
          subst heq
          have := ihidx _ hidx
          simp only [List.length_cons]
          omega
      · simp [passOne, hw, ihmap, cloneKey]

/-- `passOne_spec`, specialized to a known pass result. -/
lemma passOne_eq_spec (l : List CloneProc) (i0 : ℕ) (l' : List CloneProc)
    (r : Option ℕ) (h : passOne l i0 = (l', r)) :
    l'.length = l.length ∧
    cloneMeasure l' ≤ cloneMeasure l ∧
    (r = none → cloneMeasure l' + l.length ≤ cloneMeasure l) ∧
    (∀ j, r = some j → i0 ≤ j ∧ j < i0 + l.length) ∧
    l'.map cloneKey = l.map cloneKey := by
  obtain ⟨h1, h2, h3, h4, h5⟩ := passOne_spec l i0
  rw [h] at h1 h2 h3 h4 h5
  exact ⟨h1, h2, h3, h4, h5⟩

/-- Removing the element at an in-range index lowers the measure by at least
one (every process weighs at least one unit). -/
lemma cloneMeasure_eraseIdx :
    ∀ (l : List CloneProc) (j : ℕ), j < l.length →
      cloneMeasure (l.eraseIdx j) + 1 ≤ cloneMeasure l
  | [], j, h => absurd h (by simp)
  | p :: l, 0, _ => by
    simp only [List.eraseIdx, cloneMeasure]
    omega
  | p :: l, j + 1, h => by
    simp only [List.eraseIdx, cloneMeasure]
    have := cloneMeasure_eraseIdx l j (by simpa using h)
    omega

/-- A list is a permutation of the element at an in-range index consed onto
the list with that index removed. -/
lemma perm_cons_eraseIdx :
    ∀ (l : List CloneProc) (j : ℕ) (p : CloneProc), l[j]? = some p →
      List.Perm l (p :: l.eraseIdx j)
  | [], j, p => by simp
  | q :: l, 0, p => by
    intro h
    simp only [List.getElem?_cons_zero] at h
    have heq := Option.some_inj.mp h
    subst heq
    simp [List.eraseIdx]
  | q :: l, j + 1, p => by
    intro h
    have ih := perm_cons_eraseIdx l j p (by simpa using h)
    simp only [List.eraseIdx]
    exact (ih.cons q).trans (List.Perm.swap p q _)

/-- The `while processes:` loop of `clone_intervals`: run passes until every
process has reported and been removed, recording the completion order.
Termination holds because a pass with no completion consumes one wait window
of every outstanding process, and a completion removes a process. -/
def clone_wait_loop (procs : List CloneProc) : List (Str × ℕ) :=
  match procs with
  | [] => []
  | p0 :: rest =>
    match hpass : passOne (p0 :: rest) 0 with
    | (procs', none) => clone_wait_loop procs'
    | (procs', some j) =>
      match procs'[j]? with
      | none => []
      | some p => (p.dirname, p.exitcode) :: clone_wait_loop (procs'.eraseIdx j)
termination_by cloneMeasure procs
decreasing_by
  · obtain ⟨-, -, hnone, -, -⟩ := passOne_eq_spec _ 0 procs' none hpass
    have := hnone rfl
    simp only [List.length_cons] at this
    omega
  · obtain ⟨hlen, hle, -, hidx, -⟩ := passOne_eq_spec _ 0 procs' (some j) hpass
    have hj := hidx j rfl
    have hjlt : j < procs'.length := by
      rw [hlen]
      simp only [List.length_cons] at hj
      simp only [List.length_cons]
      omega
    have := cloneMeasure_eraseIdx procs' j hjlt
    omega

/-- Fuel-indexed permutation invariant of the waiting loop. -/
lemma clone_wait_loop_perm_aux :
    ∀ (n : ℕ) (procs : List CloneProc), cloneMeasure procs ≤ n →
      List.Perm (clone_wait_loop procs) (procs.map cloneKey)
  | n, [], _ => by
    rw [clone_wait_loop]
    simp
  | 0, p :: rest, hle => by
    exfalso
    simp only [cloneMeasure] at hle
    omega
  | n + 1, p0 :: rest, hle => by
    rw [clone_wait_loop]
    split
    · -- pass found no completed process
      rename_i procs' hpass
      obtain ⟨-, -, hnone, -, hmap⟩ :=
        passOne_eq_spec (p0 :: rest) 0 procs' none hpass
      have hmeas : cloneMeasure procs' ≤ n := by
        have := hnone rfl
        simp only [List.length_cons] at this
        omega
      rw [← hmap]
      exact clone_wait_loop_perm_aux n procs' hmeas
    · -- pass found a completed process at index `j`
      rename_i procs' j hpass
      obtain ⟨hlen, hle', -, hidx, hmap⟩ :=
        passOne_eq_spec (p0 :: rest) 0 procs' (some j) hpass
      have hj := hidx j rfl
      have hjlt : j < procs'.length := by
        simp only [List.length_cons] at hj
        rw [hlen]
        simp only [List.length_cons]
        omega
      have hget : procs'[j]? = some procs'[j] := List.getElem?_eq_getElem hjlt
      rw [hget]
      have herase := cloneMeasure_eraseIdx procs' j hjlt
      have hrec := clone_wait_loop_perm_aux n (procs'.eraseIdx j) (by omega)
      have hperm : List.Perm (procs'[j] :: procs'.eraseIdx j) procs' :=
        (perm_cons_eraseIdx procs' j procs'[j] hget).symm
      have hmapped := hperm.map cloneKey
      rw [List.map_cons] at hmapped
      rw [← hmap]
      exact (hrec.cons (cloneKey procs'[j])).trans hmapped

/-- `interval_dirname(interval, index)`: `interval + "." + str(index)`. -/
def interval_dirname (interval : Str) (index : ℕ) : Str :=
  interval ++ ('.' :: (Nat.repr index).toList)

/-- `clone_intervals(context, source_interval, dest_intervals)`: start one
`cp -al <source>.0 <dest>.0` process per destination interval (the oracle
`procOf` gives each started process its number of still-timing-out wait
windows and its exit code), then wait for all of them. -/
def clone_intervals (procOf : Str → ℕ × ℕ) (_source_interval : Str)
    (dest_intervals : List Str) : List (Str × ℕ) :=
  clone_wait_loop (dest_intervals.map (fun d =>
    { remaining := (procOf d).1, exitcode := (procOf d).2,
      dirname := interval_dirname d 0 }))

/-- C8: whatever the per-process delays and exit codes, `clone_intervals`
returns (there is no overall timeout, only per-poll windows after which a
still-running process is left running and re-polled on a later round) and
its completion record contains exactly one entry per started clone — with
that clone's own exit code, so a non-zero exit (logged as a warning) does
not prevent waiting on the others, and no outstanding process is abandoned
before reporting completion. -/
theorem clone_intervals_waits_for_all (procOf : Str → ℕ × ℕ)
    (source_interval : Str) (dest_intervals : List Str) :
    List.Perm (clone_intervals procOf source_interval dest_intervals)
      (dest_intervals.map (fun d => (interval_dirname d 0, (procOf d).2))) := by
  unfold clone_intervals
  have h := clone_wait_loop_perm_aux
    (cloneMeasure (dest_intervals.map (fun d =>
      { remaining := (procOf d).1, exitcode := (procOf d).2,
        dirname := interval_dirname d 0 })))
    (dest_intervals.map (fun d =>
      { remaining := (procOf d).1, exitcode := (procOf d).2,
        dirname := interval_dirname d 0 }))
    (le_refl _)
  rw [List.map_map] at h
  exact h

/-! ## `bcopter/device_context.py`: `WaitContext` (C9)

`WaitContext.__enter__` checks for the device node; if absent it calls
`self._waiting(0)` and then, for `i in range(1, STEP_COUNT + 1)`, sleeps
`timeout / STEP_COUNT` seconds and either breaks (device appeared) or calls
`self._waiting((i + 1) * self.step)`; if the loop finishes without a break,
`FileNotFoundError` is raised.  `_waiting(since)` invokes the callback as
`waiting_callback(since, self.timeout - since)`.  Times are modelled as
rationals (Python floats; all values arising here are exact). -/

/-- `WaitContext.STEP_COUNT`. -/
def STEP_COUNT : ℕ := 5

/-- The polling `for` loop of `WaitContext.__enter__`, at loop counter `i`
with `n` iterations left: `appears k` tells whether the device node exists at
the k-th existence check (check 0 happens before any sleep, check `i` after
the i-th sleep).  Returns the `(since, remaining)` arguments passed to the
waiting callback and whether `FileNotFoundError` was raised. -/
def wait_loop (appears : ℕ → Bool) (timeout step : ℚ) : ℕ → ℕ → List (ℚ × ℚ) × Bool
  | _, 0 => ([], true)
  | i, n + 1 =>
    if appears i then ([], false)
    else
      let r := wait_loop appears timeout step (i + 1) n
      ((((i : ℚ) + 1) * step, timeout - ((i : ℚ) + 1) * step) :: r.1, r.2)

/-- `WaitContext.__enter__`: nothing happens if the device is present at the
initial check; otherwise the callback is invoked with `since = 0` and the
polling loop runs. -/
def wait_enter (appears : ℕ → Bool) (timeout : ℚ) : List (ℚ × ℚ) × Bool :=
  if appears 0 then ([], false)
  else
    let r := wait_loop appears timeout (timeout / (STEP_COUNT : ℚ)) 1 STEP_COUNT
    ((0, timeout) :: r.1, r.2)

/-- C9 failing run, `timeout = 30` (the default), device never appearing:
the code does poll STEP_COUNT = 5 equal steps of 6 seconds and raises at the
end, and it does call the callback once at the start with elapsed time 0 and
once per elapsed step — but the per-step `since` argument is
`(i + 1) * step` instead of the elapsed `i * step`, so after the first sleep
(6 s elapsed) the callback already reports 12, and the final call reports
`since = 36 > timeout` with a *negative* remaining time `-6`, contradicting
the claim (and the docstring, which promises "the time which has passed
since the start of the waiting period").  Second conjunct: if the device
appears at the second check, acquisition returns without error after the
truncated callback trace. -/
theorem wait_context_callback_off_by_one :
    wait_enter (fun _ => false) 30 =
      ([(0, 30), (12, 18), (18, 12), (24, 6), (30, 0), (36, -6)], true) ∧
      wait_enter (fun i => decide (2 ≤ i)) 30 = ([(0, 30), (12, 18)], false) := by
  constructor
  · norm_num [wait_enter, wait_loop, STEP_COUNT]
  · norm_num [wait_enter, wait_loop, STEP_COUNT]

end Backupcopter
